import Mathlib

/-
Verification of the relaxed witness-complex construction
(src/src/Witness_complex/include/gudhi/Relaxed_witness_complex.h).

The C++ core is embedded shallowly:
* distances are rationals (exact model of the numeric values used by the code);
* the running reference distance `norelax_dist`, initialised to
  +infinity in the source, is an `Option ℚ` with `none` standing for +infinity;
* the external simplicial-complex container (GUDHI Simplex_tree, out of
  src/) is modelled from the spec (section 6) as a list of
  (canonical sorted vertex list, filtration) pairs: `insert` is a no-op on an
  already present simplex, `find` canonicalises its argument.
-/

attribute [local semireducible] Rat.sub Rat.add Rat.mul Rat.inv

namespace RelaxedWitness

open List

/-- Comparison `x ≤ n` where `n : Option ℚ` encodes a possibly infinite
distance bound (`none` = +infinity), as in the C++ `norelax_dist` initialised
to `std::numeric_limits<double>::infinity()`. -/
def extLE (x : ℚ) (n : Option ℚ) : Bool :=
  match n with
  | none => true
  | some v => decide (x ≤ v)

/-- Strict comparison `x < n` against a possibly infinite bound. -/
def extLT (x : ℚ) (n : Option ℚ) : Bool :=
  match n with
  | none => true
  | some v => decide (x < v)

/-- Canonical form of a vertex list: sorted ascending.  GUDHI's
`Simplex_tree::find` and `insert_simplex` both sort the input range, so the
container is keyed on the sorted vertex tuple. -/
def canon (s : List ℕ) : List ℕ :=
  List.insertionSort (fun a b => a ≤ b) s

/-- Lookup in an association list of (canonical simplex, filtration) pairs. -/
def lookupQ (k : List ℕ) : List (List ℕ × ℚ) → Option ℚ
  | [] => none
  | p :: ps => if p.1 = k then some p.2 else lookupQ k ps

/-- The external simplicial-complex container, modelled from the spec
(section 6): stored simplices with filtration values. -/
structure SC where
  simplices : List (List ℕ × ℚ)
deriving DecidableEq, Repr

/-- `find`: present/absent plus the recorded filtration value. -/
def SC.find (sc : SC) (s : List ℕ) : Option ℚ :=
  lookupQ (canon s) sc.simplices

/-- Membership test. -/
def SC.mem (sc : SC) (s : List ℕ) : Bool :=
  (SC.find sc s).isSome

/-- `insert_simplex`: no update when the simplex is already present
(GUDHI behaviour, spec section 6 `insert → already_present|inserted`). -/
def SC.insert (sc : SC) (s : List ℕ) (fv : ℚ) : SC :=
  if (SC.find sc s).isSome then sc else ⟨sc.simplices ++ [(canon s, fv)]⟩

/-- The codimension-1 faces of `s` in the order the C++ `all_faces_in`
enumerates them: omit the vertex at position 0, 1, …. -/
def facetsOf (s : List ℕ) : List (List ℕ) :=
  (List.range s.length).map (fun i => s.eraseIdx i)

/-- The fold inside `all_faces_in` (source lines 249-260): fail as soon as a
facet is absent, otherwise raise the running filtration value to the facet's
filtration when the latter is larger. -/
def allFacesInAux (sc : SC) : List (List ℕ) → ℚ → Option ℚ
  | [], fv => some fv
  | f :: fs, fv =>
    match SC.find sc f with
    | none => none
    | some g => allFacesInAux sc fs (if g > fv then g else fv)

/-- `all_faces_in` (source lines 246-262): checks that each facet of
`simplex` is present and returns the filtration value raised to the maximum
facet filtration. -/
def allFacesIn (sc : SC) (simplex : List ℕ) (fv : ℚ) : Option ℚ :=
  allFacesInAux sc (facetsOf simplex) fv

/-- Initial filtration value at the leaf (source lines 226-229):
`0`, or `d - norelax_dist` when `d > norelax_dist`; with
`norelax_dist = ∞` the relaxation is 0. -/
def leafFv (nr : Option ℚ) (d : ℚ) : ℚ :=
  match nr with
  | none => 0
  | some v => if v < d then d - v else 0

/-- Update of `norelax_dist` in the `dim > 0` loop (source lines 212-214):
`if (*d_it <= norelax_dist) norelax_dist = *d_it`. -/
def norelaxUpdateNode (nr : Option ℚ) (d : ℚ) : Option ℚ :=
  if extLE d nr then some d else nr

/-- Update of `norelax_dist` in the `dim == 0` loop (source lines 235-237):
`if (*d_it < norelax_dist) norelax_dist = *d_it`. -/
def norelaxUpdateLeaf (nr : Option ℚ) (d : ℚ) : Option ℚ :=
  if extLT d nr then some d else nr

/-- One leaf iteration body (source lines 225-234): append the landmark,
compute the initial filtration value, consult `all_faces_in`, and insert on
success.  Returns the container and whether an insertion was performed
(which sets `will_be_active`). -/
def leafStep (nr : Option ℚ) (d : ℚ) (l : ℕ) (simplex : List ℕ) (sc : SC) :
    SC × Bool :=
  match allFacesIn sc (simplex ++ [l]) (leafFv nr d) with
  | some fv => (SC.insert sc (simplex ++ [l]) fv, true)
  | none => (sc, false)

/-- The scanning loop of `add_all_faces_of_dimension` (source lines 200-238),
for both the `dim > 0` and the `dim == 0` branch.  The two cursors `d_it`,
`l_it` are the remaining suffixes `ds`, `ls`; `acc` is the accumulated
`will_be_active`.  The loop stops when the cursor reaches the end or the
admissibility guard `*d_it - alpha ≤ norelax_dist` fails. -/
def faceLoop (dim : ℕ) (alpha : ℚ) (nr : Option ℚ) :
    List ℚ → List ℕ → List ℕ → SC → Bool → SC × Bool
  | [], _, _, sc, acc => (sc, acc)
  | _ :: _, [], _, sc, acc => (sc, acc)
  | d :: ds, l :: ls, simplex, sc, acc =>
    if extLE (d - alpha) nr then
      match dim with
      | 0 =>
        let p := leafStep nr d l simplex sc
        faceLoop 0 alpha (norelaxUpdateLeaf nr d) ds ls simplex p.1 (acc || p.2)
      | dm + 1 =>
        let a :=
          if (SC.find sc (simplex ++ [l])).isSome then
            faceLoop dm alpha nr ds ls (simplex ++ [l]) sc false
          else (sc, false)
        let b := faceLoop dm alpha (norelaxUpdateNode nr d) ds ls simplex a.1 false
        faceLoop (dm + 1) alpha (norelaxUpdateNode nr d) ds ls simplex b.1
          (acc || a.2 || b.2)
    else (sc, acc)

/-- `add_all_faces_of_dimension` (source lines 187-240): returns the complex
and whether the witness remains active.  An empty landmark cursor returns
inactive at once (source line 195-196); otherwise the entry state of the
scanning loop has `will_be_active = false`. -/
def addFaces (dim : ℕ) (alpha : ℚ) (nr : Option ℚ) (ds : List ℚ) (ls : List ℕ)
    (simplex : List ℕ) (sc : SC) : SC × Bool :=
  faceLoop dim alpha nr ds ls simplex sc false

/-- One pass of the constructor's inner witness loop (source lines 158-173):
process each still-active witness in order, erasing those reported inactive. -/
def runPass (k : ℕ) (alpha : ℚ) (dist : List (List ℚ)) (knn : List (List ℕ)) :
    List ℕ → SC → SC × List ℕ
  | [], sc => (sc, [])
  | w :: ws, sc =>
    let p := addFaces k alpha none (dist.getD w []) (knn.getD w []) [] sc
    let q := runPass k alpha dist knn ws p.1
    (q.1, if p.2 then w :: q.2 else q.2)

/-- Initial fill of 0-dimensional simplices (source lines 145-152): every
landmark in `[0, nbL)` is inserted with filtration 0. -/
def initVertices (nbL : ℕ) : SC :=
  (List.range nbL).foldl (fun sc i => SC.insert sc [i] 0) ⟨[]⟩

/-- The constructor's dimension loop (source lines 156-175), fuel-structural:
`while (!active_w.empty() && k <= limD && k < nbL)`.  With enough fuel the
fuel case is never the one that stops the loop (claim C7). -/
def build (alpha : ℚ) (dist : List (List ℚ)) (knn : List (List ℕ)) (nbL : ℕ)
    (limD : ℤ) : ℕ → ℕ → List ℕ → SC → SC
  | 0, _, _, sc => sc
  | fuel + 1, k, act, sc =>
    if act.isEmpty || !(decide ((k : ℤ) ≤ limD)) || !(decide (k < nbL)) then sc
    else
      let p := runPass k alpha dist knn act sc
      build alpha dist knn nbL limD fuel (k + 1) p.2 p.1

/-- The `Relaxed_witness_complex` constructor (source lines 131-177):
initial vertices, then the dimension loop starting at `k = 1` with all
witnesses active. -/
def relaxedWitnessComplex (dist : List (List ℚ)) (knn : List (List ℕ))
    (nbL : ℕ) (alpha : ℚ) (limD : ℤ) : SC :=
  build alpha dist knn nbL limD (limD + 1).toNat 1 (List.range knn.length)
    (initVertices nbL)

/-! ### The incremental construction `Witness_complex_new::create_complex`
(source lines 486-655 with `fill_vertices` lines 668-712 and `fill_edges`
lines 716-778).  `fill_simplices` (lines 785-876) inserts nothing — its
insertion code is commented out in the source — so the simplices stored by
`create_complex` are exactly those inserted by the first loops of
`fill_vertices` and `fill_edges`. -/

/-- Common shape of the scanning loops of `fill_vertices` (first loop,
source lines 684-696) and `fill_edges` (first loop, source lines 733-752):
walk the remaining (landmark, distance) pairs while
`l_it != end && l_it->second - alpha2 <= norelax_dist2`; on each admissible
pair either raise the filtration value (`d > norelax`) or lower the window
(`else`), the filtration variable being carried across iterations, and insert
`base + [l]`. -/
def fillScan (alpha2 : ℚ) (base : List ℕ) :
    List (ℕ × ℚ) → Option ℚ → ℚ → SC → SC
  | [], _, _, sc => sc
  | (l, d) :: rest, nr, fv, sc =>
    if extLE (d - alpha2) nr then
      match nr with
      | none => fillScan alpha2 base rest (some d) fv (SC.insert sc (base ++ [l]) fv)
      | some v =>
        if v < d then
          fillScan alpha2 base rest (some v) (d - v) (SC.insert sc (base ++ [l]) (d - v))
        else
          fillScan alpha2 base rest (some d) fv (SC.insert sc (base ++ [l]) fv)
    else sc

/-- Witness entry of the association map: resume position in the witness's
pair list, witness index, and recorded `limit_distance_`. -/
abbrev WEntry := ℕ × ℕ × Option ℚ

/-- Append an entry to the association map.  The C++ map is a `std::map`
keyed by `Sib_vertex_pair` (a type not under src/, ordered by container
internals); the embedding keys by the canonical vertex list and iterates in
first-insertion order. -/
def mapAppend (k : List ℕ) (e : WEntry) :
    List (List ℕ × List WEntry) → List (List ℕ × List WEntry)
  | [] => [(k, [e])]
  | (k0, es) :: rest =>
    if k0 = k then (k0, es ++ [e]) :: rest else (k0, es) :: mapAppend k e rest

/-- Second loop of `fill_vertices` (source lines 697-711): record, per
admissible landmark of witness `w`, the resume position and the value of
`norelax_dist2` before its strict-inequality update. -/
def fillVertexMap (alpha2 : ℚ) (w : ℕ) :
    List (ℕ × ℚ) → ℕ → Option ℚ → List (List ℕ × List WEntry) →
    List (List ℕ × List WEntry)
  | [], _, _, m => m
  | (l, d) :: rest, i, nr, m =>
    if extLE (d - alpha2) nr then
      fillVertexMap alpha2 w rest (i + 1) (if extLT d nr then some d else nr)
        (mapAppend (canon [l]) (i, w, nr) m)
    else m

/-- `create_complex` (source lines 486-655): reject a negative relaxation
parameter (lines 507-510) before inserting anything, then run the first loop
of `fill_vertices`, build the vertex→witness map (second loop), and run the
first loop of `fill_edges` from each recorded entry.  The source's
`limit_dimension < 0` check (lines 511-514) can never fire because the
parameter is `std::size_t`; `limitDim` is accordingly unused. -/
def createComplex (table : List (List (ℕ × ℚ))) (alpha2 : ℚ)
    (limitDim : ℕ) : Option SC :=
  if alpha2 < 0 then none
  else
    let _ := limitDim
    let sc1 := (List.range table.length).foldl
      (fun sc w => fillScan alpha2 [] (table.getD w []) none 0 sc) ⟨[]⟩
    let m := (List.range table.length).foldl
      (fun m w => fillVertexMap alpha2 w (table.getD w []) 0 none m) []
    some (m.foldl
      (fun sc kv => kv.2.foldl
        (fun sc e => fillScan alpha2 kv.1 ((table.getD e.2.1 []).drop (e.1 + 1))
          e.2.2 0 sc) sc)
      sc1)

/-! ### Instrumented variants tracking the out-of-range guard read.
The C++ loop guard `*d_it - alpha <= norelax_dist && l_it != end`
(source line 201 and line 224; in the second implementation
`l_it->second - alpha2 <= norelax_dist2 && l_it != end`, lines 898 and 925)
dereferences the distance cursor before testing it against `end`.  In a
total embedding that read returns an `Option`; the instrumented loops
return an extra flag that is set exactly when the out-of-range (`none`)
branch of the read is taken. -/

/-- Instrumented scanning loop of the first implementation.  The first
pattern is the loop iteration whose guard dereferences the distance cursor
one past the end: the flag becomes `true` and the loop then stops (in C++
`l_it != end` fails).  The entry check `curr_l == end` of a recursive call
performs no read, so the inner calls are guarded by `isEmpty` tests that
leave the flag unchanged. -/
def faceLoopIx (dim : ℕ) (alpha : ℚ) (nr : Option ℚ) :
    List ℚ → List ℕ → List ℕ → SC → Bool → Bool → SC × Bool × Bool
  | [], _, _, sc, acc, _ => (sc, acc, true)
  | _ :: _, [], _, sc, acc, oob => (sc, acc, oob)
  | d :: ds, l :: ls, simplex, sc, acc, oob =>
    if extLE (d - alpha) nr then
      match dim with
      | 0 =>
        let p := leafStep nr d l simplex sc
        faceLoopIx 0 alpha (norelaxUpdateLeaf nr d) ds ls simplex p.1 (acc || p.2) oob
      | dm + 1 =>
        let a :=
          if (SC.find sc (simplex ++ [l])).isSome then
            if ls.isEmpty then (sc, false, oob)
            else faceLoopIx dm alpha nr ds ls (simplex ++ [l]) sc false oob
          else (sc, false, oob)
        let b :=
          if ls.isEmpty then (a.1, false, a.2.2)
          else faceLoopIx dm alpha (norelaxUpdateNode nr d) ds ls simplex a.1 false a.2.2
        faceLoopIx (dm + 1) alpha (norelaxUpdateNode nr d) ds ls simplex b.1
          (acc || a.2.1 || b.2.1) b.2.2
    else (sc, acc, oob)

/-- Instrumented `add_all_faces_of_dimension` of the first implementation:
the entry check `curr_l == end` (source line 195) performs no read. -/
def addFacesIx (dim : ℕ) (alpha : ℚ) (nr : Option ℚ) (ds : List ℚ)
    (ls : List ℕ) (simplex : List ℕ) (sc : SC) : SC × Bool × Bool :=
  if ls.isEmpty then (sc, false, false)
  else faceLoopIx dim alpha nr ds ls simplex sc false false

/-- Instrumented scanning loop of the second implementation
(`Witness_complex_new::add_all_faces_of_dimension`, source lines 885-942),
whose cursor walks a single list of (landmark, distance) pairs; its skip
branch recurses at the same dimension (line 916).  Its leaf consults
`all_faces_in` from a header not under src/, modelled from the spec's
closure-oracle description with the same `allFacesIn`. -/
def newFaceLoopIx (dim : ℕ) (alpha2 : ℚ) (nr : Option ℚ) :
    List (ℕ × ℚ) → List ℕ → SC → Bool → Bool → SC × Bool × Bool
  | [], _, sc, acc, _ => (sc, acc, true)
  | (l, d) :: rest, simplex, sc, acc, oob =>
    if extLE (d - alpha2) nr then
      match dim with
      | 0 =>
        let p := leafStep nr d l simplex sc
        newFaceLoopIx 0 alpha2 (norelaxUpdateLeaf nr d) rest simplex p.1 (acc || p.2) oob
      | dm + 1 =>
        let a :=
          if (SC.find sc (simplex ++ [l])).isSome then
            if rest.isEmpty then (sc, false, oob)
            else newFaceLoopIx dm alpha2 nr rest (simplex ++ [l]) sc false oob
          else (sc, false, oob)
        let b :=
          if rest.isEmpty then (a.1, false, a.2.2)
          else newFaceLoopIx (dm + 1) alpha2 (norelaxUpdateNode nr d) rest simplex a.1 false a.2.2
        newFaceLoopIx (dm + 1) alpha2 (norelaxUpdateNode nr d) rest simplex b.1
          (acc || a.2.1 || b.2.1) b.2.2
    else (sc, acc, oob)

/-- Instrumented entry of the second implementation (source line 893). -/
def newAddFacesIx (dim : ℕ) (alpha2 : ℚ) (nr : Option ℚ)
    (pairs : List (ℕ × ℚ)) (simplex : List ℕ) (sc : SC) : SC × Bool × Bool :=
  if pairs.isEmpty then (sc, false, false)
  else newFaceLoopIx dim alpha2 nr pairs simplex sc false false

/-! ### Gas-bounded recursion, for the termination claim.
Each C++ recursive call of `add_all_faces_of_dimension` strictly advances
the landmark cursor, so call depth is bounded by the length of the remaining
landmark list.  `gasAddFaces` charges one unit of gas per call and returns
`none` on exhaustion; gas `ls.length + 1` always suffices (claim C7). -/

/-- The scanning loop with branch calls delegated to `next`, the gas-charged
recursive entry one level down. -/
def gasLoop
    (next : ℕ → ℚ → Option ℚ → List ℚ → List ℕ → List ℕ → SC → Option (SC × Bool))
    (dim : ℕ) (alpha : ℚ) (nr : Option ℚ) :
    List ℚ → List ℕ → List ℕ → SC → Bool → Option (SC × Bool)
  | [], _, _, sc, acc => some (sc, acc)
  | _ :: _, [], _, sc, acc => some (sc, acc)
  | d :: ds, l :: ls, simplex, sc, acc =>
    if extLE (d - alpha) nr then
      match dim with
      | 0 =>
        let p := leafStep nr d l simplex sc
        gasLoop next 0 alpha (norelaxUpdateLeaf nr d) ds ls simplex p.1 (acc || p.2)
      | dm + 1 =>
        match (if (SC.find sc (simplex ++ [l])).isSome then
                 next dm alpha nr ds ls (simplex ++ [l]) sc
               else some (sc, false)) with
        | none => none
        | some a =>
          match next dm alpha (norelaxUpdateNode nr d) ds ls simplex a.1 with
          | none => none
          | some b =>
            gasLoop next (dm + 1) alpha (norelaxUpdateNode nr d) ds ls simplex b.1
              (acc || a.2 || b.2)
    else some (sc, acc)

/-- Gas-charged `add_all_faces_of_dimension`: one unit of gas per recursive
call, `none` when the gas runs out. -/
def gasAddFaces : ℕ → ℕ → ℚ → Option ℚ → List ℚ → List ℕ → List ℕ → SC →
    Option (SC × Bool)
  | 0, _, _, _, _, _, _, _ => none
  | g + 1, dim, alpha, nr, ds, ls, simplex, sc =>
    if ls.isEmpty then some (sc, false)
    else gasLoop (gasAddFaces g) dim alpha nr ds ls simplex sc false

/-! ### Claim-side definitions (phrased from the spec's words, to be compared
with the embedded code). -/

/-- The spec's window update: `norelax_dist` becomes `d` when
`d ≤ norelax_dist` and is left unchanged when `d > norelax_dist`
(spec section 4.2). -/
def norelaxSpec (nr : Option ℚ) (d : ℚ) : Option ℚ :=
  if extLE d nr then some d else nr

/-- The spec's relaxation term `max(0, last_admitted_distance − norelax_dist)`
(spec section 4.4), 0 when `norelax_dist` is infinite. -/
def specRelax (nr : Option ℚ) (d : ℚ) : ℚ :=
  match nr with
  | none => 0
  | some v => max 0 (d - v)

/-- Filtration values of a list of faces, `none` if any face is absent. -/
def facetFiltrations (sc : SC) : List (List ℕ) → Option (List ℚ)
  | [] => some []
  | f :: fs =>
    match SC.find sc f, facetFiltrations sc fs with
    | some g, some gs => some (g :: gs)
    | _, _ => none

/-- Closure-with-filtration invariant: every stored simplex of dimension ≥ 1
has each codimension-1 face present with a filtration value bounded by its
own. -/
def MonoSC (sc : SC) : Prop :=
  ∀ p ∈ sc.simplices, 2 ≤ p.1.length → ∀ i < p.1.length,
    ∃ g, SC.find sc (p.1.eraseIdx i) = some g ∧ g ≤ p.2

/-- Membership inclusion between two containers. -/
def memLE (sc1 sc2 : SC) : Prop :=
  ∀ s, SC.mem sc1 s = true → SC.mem sc2 s = true

/-- The maximum filtration among a (nonempty) list of facet filtrations —
the spec's `closure_bound`. -/
def closureBound : List ℚ → ℚ
  | [] => 0
  | g :: rest => rest.foldl max g

/-! ## Theorems -/

/-- The strict-inequality leaf update of `norelax_dist` agrees extensionally
with the spec's non-strict description: when `d` equals the current bound the
assignment is the identity. -/
theorem norelaxUpdateLeaf_eq_spec (nr : Option ℚ) (d : ℚ) :
    norelaxUpdateLeaf nr d = norelaxSpec nr d := by
  cases nr with
  | none => rfl
  | some v =>
    simp only [norelaxUpdateLeaf, norelaxSpec, extLT, extLE]
    rcases lt_trichotomy d v with h | h | h
    · simp [h, le_of_lt h]
    · simp [h]
    · simp [not_lt_of_gt h, not_le_of_gt h]

/-- The node update of `norelax_dist` is literally the spec's update. -/
theorem norelaxUpdateNode_eq_spec (nr : Option ℚ) (d : ℚ) :
    norelaxUpdateNode nr d = norelaxSpec nr d := rfl

/-- C10: in both implementations of `add_all_faces_of_dimension` the scanning
loop's guard evaluates the distance at the current cursor before testing the
cursor against `end`; on a witness whose whole landmark list is admissible
(here one landmark at distance 1 with `alpha = 10`) the guard performs a read
one element past the end of the sequence — in the total embedding, where
that read returns an `Option`, the out-of-range branch is taken (the flag
of the instrumented run is set). -/
theorem C10_guard_reads_past_end :
    (addFacesIx 1 10 none [1] [0] [] (initVertices 1)).2.2 = true ∧
    (newAddFacesIx 1 10 none [(0, 1)] [] (initVertices 1)).2.2 = true := by
  decide

/-- C8 counterexample: on the single witness [(0,1),(1,6/5),(2,5)] with
`alpha = 1/2`, the constructed complex does contain the vertex {2} — the
constructor pre-inserts every landmark in [0,nbL) with filtration 0 (source
lines 145-152) — contradicting the claim that vertex {2} is absent. -/
theorem C8_counterexample :
    SC.mem (relaxedWitnessComplex [[1, 6/5, 5]] [[0, 1, 2]] 3 (1/2) 2) [2] = true := by
  decide

/-- C8 amended: the complex built from the single witness
[(0,1),(1,6/5),(2,5)] with `alpha = 1/2` contains the vertices {0} and {1}
and the edge {0,1}, and contains no edge with landmark 2 as an endpoint —
but it does contain the vertex {2} (with filtration 0), since the
constructor pre-inserts every landmark as a vertex. -/
theorem C8_amended :
    SC.mem (relaxedWitnessComplex [[1, 6/5, 5]] [[0, 1, 2]] 3 (1/2) 2) [0] = true ∧
    SC.mem (relaxedWitnessComplex [[1, 6/5, 5]] [[0, 1, 2]] 3 (1/2) 2) [1] = true ∧
    SC.mem (relaxedWitnessComplex [[1, 6/5, 5]] [[0, 1, 2]] 3 (1/2) 2) [0, 1] = true ∧
    SC.find (relaxedWitnessComplex [[1, 6/5, 5]] [[0, 1, 2]] 3 (1/2) 2) [2] = some 0 ∧
    SC.mem (relaxedWitnessComplex [[1, 6/5, 5]] [[0, 1, 2]] 3 (1/2) 2) [0, 2] = false ∧
    SC.mem (relaxedWitnessComplex [[1, 6/5, 5]] [[0, 1, 2]] 3 (1/2) 2) [1, 2] = false := by
  decide

/-- C5: the two constructions are not equivalent.  On the table with one
witness [(0,1),(1,6/5)], `alpha = 0`, two landmarks, dimension limit 1, the
naive construction contains the vertex {1} (all landmarks are pre-inserted)
while `create_complex` does not (its `fill_vertices` inserts only witnessed
vertices, and landmark 1 fails the admissibility test `6/5 - 0 ≤ 1`). -/
theorem C5_not_equivalent :
    SC.mem (relaxedWitnessComplex [[1, 6/5]] [[0, 1]] 2 0 1) [1] = true ∧
    (createComplex [[(0, 1), (1, 6/5)]] 0 1).map (fun sc => SC.mem sc [1]) =
      some false := by
  decide

/-- C9 counterexample: the `Relaxed_witness_complex` constructor performs no
validation at all — invoked with the negative relaxation parameter
`alpha = -1` it does not fail, and it builds a non-empty complex (the vertex
{0} is inserted). -/
theorem C9_counterexample :
    (relaxedWitnessComplex [[1]] [[0]] 1 (-1) 1).simplices = [([0], 0)] := by
  decide

/-- C9 amended: only `Witness_complex_new::create_complex` validates, and
only the relaxation parameter: a negative `alpha` is rejected immediately
(failure result, nothing built).  A negative maximum dimension is never
rejected: `create_complex`'s limit parameter is unsigned so its negativity
check cannot fire, and the naive constructor builds without any check. -/
theorem C9_amended (table : List (List (ℕ × ℚ))) (alpha2 : ℚ) (limitDim : ℕ)
    (h : alpha2 < 0) : createComplex table alpha2 limitDim = none := by
  simp [createComplex, h]

/-- Witness for C9 amended at a concrete input. -/
theorem C9_amended_witness : createComplex [[(0, 1)]] (-1) 1 = none :=
  C9_amended [[(0, 1)]] (-1) 1 (by norm_num)

/-- C2: at every scanning step of `add_all_faces_of_dimension`, at every
recursion depth, the landmark under the cursor is appended to the candidate
iff `d - alpha ≤ norelax_dist` (when the guard fails the loop stops with
state unchanged; when it holds, the step processes the candidate
`simplex ++ [l]`), and after the step `norelax_dist` equals `d` when
`d ≤ norelax_dist` and is unchanged when `d > norelax_dist` — at the leaf
depth as well, where the source uses a strict comparison whose equal-distance
case is an identity assignment. -/
theorem C2_scanning_step (dim : ℕ) (alpha : ℚ) (nr : Option ℚ) (d : ℚ)
    (ds : List ℚ) (l : ℕ) (ls : List ℕ) (simplex : List ℕ) (sc : SC)
    (acc : Bool) :
    (extLE (d - alpha) nr = false →
      faceLoop dim alpha nr (d :: ds) (l :: ls) simplex sc acc = (sc, acc)) ∧
    (extLE (d - alpha) nr = true →
      faceLoop 0 alpha nr (d :: ds) (l :: ls) simplex sc acc =
        faceLoop 0 alpha (norelaxSpec nr d) ds ls simplex
          (leafStep nr d l simplex sc).1
          (acc || (leafStep nr d l simplex sc).2)) ∧
    (extLE (d - alpha) nr = true →
      faceLoop (dim + 1) alpha nr (d :: ds) (l :: ls) simplex sc acc =
        (let a := if (SC.find sc (simplex ++ [l])).isSome then
                    faceLoop dim alpha nr ds ls (simplex ++ [l]) sc false
                  else (sc, false)
         let b := faceLoop dim alpha (norelaxSpec nr d) ds ls simplex a.1 false
         faceLoop (dim + 1) alpha (norelaxSpec nr d) ds ls simplex b.1
           (acc || a.2 || b.2))) ∧
    norelaxUpdateNode nr d = norelaxSpec nr d ∧
    norelaxUpdateLeaf nr d = norelaxSpec nr d := by
  refine ⟨?_, ?_, ?_, norelaxUpdateNode_eq_spec nr d, norelaxUpdateLeaf_eq_spec nr d⟩
  · intro h
    simp [faceLoop, h]
  · intro h
    simp [faceLoop, h, norelaxUpdateLeaf_eq_spec]
  · intro h
    simp [faceLoop, h, norelaxUpdateNode_eq_spec]

/-- Witness for C2 at a concrete inadmissible step: distance 5, `alpha = 0`,
bound 1, so the guard `5 - 0 ≤ 1` fails and the loop stops unchanged. -/
theorem C2_scanning_step_witness :
    faceLoop 1 0 (some 1) [5] [2] [] ⟨[]⟩ false = (⟨[]⟩, false) :=
  (C2_scanning_step 1 0 (some 1) 5 [] 2 [] [] ⟨[]⟩ false).1 (by decide)

/-! ### The closure-oracle fold and the filtration formula -/

/-- The raise-if-larger step of `all_faces_in` is a maximum. -/
theorem ite_gt_eq_max (fv g : ℚ) : (if g > fv then g else fv) = max fv g := by
  rcases le_or_lt g fv with h | h
  · simp [not_lt_of_ge h, max_eq_left h]
  · simp [h, max_eq_right (le_of_lt h)]

/-- The `all_faces_in` fold succeeds iff every facet is present, and then
computes the left fold of `max` over the facet filtrations. -/
theorem allFacesInAux_eq (sc : SC) (fs : List (List ℕ)) (fv : ℚ) :
    allFacesInAux sc fs fv =
      (facetFiltrations sc fs).map (List.foldl max fv) := by
  induction fs generalizing fv with
  | nil => rfl
  | cons f fs ih =>
    cases hf : SC.find sc f with
    | none => simp [allFacesInAux, facetFiltrations, hf]
    | some g =>
      simp only [allFacesInAux, facetFiltrations, hf]
      rw [ite_gt_eq_max, ih]
      cases hfs : facetFiltrations sc fs with
      | none => simp
      | some gs => simp

/-- The initial value is a lower bound of the `max` fold. -/
theorem foldl_max_init_le (l : List ℚ) (a : ℚ) : a ≤ l.foldl max a := by
  induction l generalizing a with
  | nil => exact le_refl a
  | cons x xs ih => exact le_trans (le_max_left a x) (ih (max a x))

/-- Every member is a lower bound of the `max` fold. -/
theorem foldl_max_mem_le (l : List ℚ) (g : ℚ) :
    g ∈ l → ∀ a, g ≤ l.foldl max a := by
  induction l with
  | nil => intro hg; cases hg
  | cons x xs ih =>
    intro hg a
    rcases List.mem_cons.mp hg with h | h
    · subst h
      exact le_trans (le_max_right a g) (foldl_max_init_le xs (max a g))
    · exact ih h (max a x)

/-- Folding `max` from `max a b` extracts `a`. -/
theorem foldl_max_absorb (l : List ℚ) (a b : ℚ) :
    List.foldl max (max a b) l = max a (List.foldl max b l) := by
  induction l generalizing b with
  | nil => rfl
  | cons x xs ih =>
    simp only [List.foldl_cons]
    rw [max_assoc, ih]

/-- On a nonempty filtration list the fold is the maximum of the spec's
closure bound and the initial value. -/
theorem foldl_max_eq_closureBound (g : ℚ) (rest : List ℚ) (fv : ℚ) :
    (g :: rest).foldl max fv = max (closureBound (g :: rest)) fv := by
  simp only [List.foldl_cons, closureBound]
  rw [foldl_max_absorb rest fv g, max_comm]

/-- The leaf's initial filtration value is the spec's relaxation term. -/
theorem leafFv_eq_specRelax (nr : Option ℚ) (d : ℚ) :
    leafFv nr d = specRelax nr d := by
  cases nr with
  | none => rfl
  | some v =>
    simp only [leafFv, specRelax]
    rcases lt_or_ge v d with h | h
    · rw [if_pos h, max_eq_right]
      linarith
    · rw [if_neg (not_lt_of_ge h), max_eq_left]
      linarith

/-- The relaxation term is nonnegative. -/
theorem specRelax_nonneg (nr : Option ℚ) (d : ℚ) : 0 ≤ specRelax nr d := by
  cases nr with
  | none => exact le_refl 0
  | some v => exact le_max_left 0 (d - v)

/-- A successful facet-filtration scan records one value per facet. -/
theorem facetFiltrations_length (sc : SC) (fs : List (List ℕ))
    (gs : List ℚ) (h : facetFiltrations sc fs = some gs) :
    gs.length = fs.length := by
  induction fs generalizing gs with
  | nil =>
    simp only [facetFiltrations] at h
    cases h
    rfl
  | cons f fs ih =>
    simp only [facetFiltrations] at h
    cases hf : SC.find sc f with
    | none => rw [hf] at h; cases h
    | some g =>
      rw [hf] at h
      cases hfs : facetFiltrations sc fs with
      | none => rw [hfs] at h; cases h
      | some gs0 =>
        rw [hfs] at h
        cases h
        simp [ih gs0 hfs]

/-- Each facet's recorded filtration appears in the scan result. -/
theorem facetFiltrations_find (sc : SC) (fs : List (List ℕ)) (gs : List ℚ)
    (h : facetFiltrations sc fs = some gs) (f : List ℕ) (hf : f ∈ fs) :
    ∃ g, SC.find sc f = some g ∧ g ∈ gs := by
  induction fs generalizing gs with
  | nil => cases hf
  | cons f0 fs ih =>
    simp only [facetFiltrations] at h
    cases hf0 : SC.find sc f0 with
    | none => rw [hf0] at h; cases h
    | some g0 =>
      rw [hf0] at h
      cases hfs : facetFiltrations sc fs with
      | none => rw [hfs] at h; cases h
      | some gs0 =>
        rw [hfs] at h
        cases h
        rcases List.mem_cons.mp hf with h | h
        · subst h
          exact ⟨g0, hf0, List.mem_cons_self _ _⟩
        · rcases ih gs0 hfs h with ⟨g, hg1, hg2⟩
          exact ⟨g, hg1, List.mem_cons_of_mem _ hg2⟩

/-- There are as many facets as vertices. -/
theorem facetsOf_length (s : List ℕ) : (facetsOf s).length = s.length := by
  simp [facetsOf]

/-- C3: a simplex admitted at the leaf of the recursion is passed to
`insert_simplex` with filtration value
`max(closure_bound, max(0, last_admitted_distance − norelax_dist))`, where
`closure_bound` is the maximum filtration among the `k+1` facets returned by
the closure oracle; in particular the value is nonnegative. -/
theorem C3_leaf_filtration (nr : Option ℚ) (d : ℚ) (l : ℕ)
    (simplex : List ℕ) (sc sc2 : SC)
    (h : leafStep nr d l simplex sc = (sc2, true)) :
    ∃ gs, facetFiltrations sc (facetsOf (simplex ++ [l])) = some gs ∧
      gs.length = simplex.length + 1 ∧
      sc2 = SC.insert sc (simplex ++ [l])
        (max (closureBound gs) (specRelax nr d)) ∧
      0 ≤ max (closureBound gs) (specRelax nr d) := by
  have hall : allFacesIn sc (simplex ++ [l]) (leafFv nr d) =
      (facetFiltrations sc (facetsOf (simplex ++ [l]))).map
        (List.foldl max (leafFv nr d)) :=
    allFacesInAux_eq sc (facetsOf (simplex ++ [l])) (leafFv nr d)
  unfold leafStep at h
  cases hf : allFacesIn sc (simplex ++ [l]) (leafFv nr d) with
  | none =>
    rw [hf] at h
    cases h
  | some fv =>
    rw [hf] at h
    rw [hf] at hall
    cases hff : facetFiltrations sc (facetsOf (simplex ++ [l])) with
    | none =>
      rw [hff] at hall
      cases hall
    | some gs =>
      rw [hff] at hall
      have hfv : fv = gs.foldl max (leafFv nr d) := by
        simpa using hall
      have hlen : gs.length = simplex.length + 1 := by
        rw [facetFiltrations_length sc _ gs hff, facetsOf_length]
        simp
      cases gs with
      | nil => simp at hlen
      | cons g rest =>
        refine ⟨g :: rest, rfl, hlen, ?_, ?_⟩
        · have : fv = max (closureBound (g :: rest)) (specRelax nr d) := by
            rw [hfv, foldl_max_eq_closureBound, leafFv_eq_specRelax]
          rw [← this]
          exact (Prod.mk.injEq _ _ _ _ ▸ h).1.symm
        · exact le_trans (specRelax_nonneg nr d) (le_max_right _ _)

/-- Witness for C3 at a concrete admitted leaf: prefix [0], landmark 1 at
distance 6/5, bound 1, over the complex holding the vertices {0} and {1}. -/
theorem C3_leaf_filtration_witness :
    ∃ gs, facetFiltrations (initVertices 2) (facetsOf ([0] ++ [1])) = some gs ∧
      gs.length = [0].length + 1 ∧
      SC.insert (initVertices 2) ([0] ++ [1]) (1/5) =
        SC.insert (initVertices 2) ([0] ++ [1])
          (max (closureBound gs) (specRelax (some 1) (6/5))) ∧
      0 ≤ max (closureBound gs) (specRelax (some 1) (6/5)) :=
  C3_leaf_filtration (some 1) (6/5) 1 [0] (initVertices 2)
    (SC.insert (initVertices 2) ([0] ++ [1]) (1/5)) (by decide)

/-! ### Canonical keys, lookup and insertion -/

/-- The canonical form is a permutation of the input. -/
theorem canon_perm (s : List ℕ) : canon s ~ s :=
  List.perm_insertionSort _ s

/-- The canonical form is sorted. -/
theorem canon_sorted (s : List ℕ) : List.Sorted (fun a b => a ≤ b) (canon s) :=
  List.sorted_insertionSort _ s

/-- Permutations share the canonical form. -/
theorem canon_eq_of_perm (s t : List ℕ) (h : s ~ t) : canon s = canon t :=
  List.eq_of_perm_of_sorted (((canon_perm s).trans h).trans (canon_perm t).symm)
    (canon_sorted s) (canon_sorted t)

/-- The canonical form keeps the length. -/
theorem canon_length (s : List ℕ) : (canon s).length = s.length :=
  (canon_perm s).length_eq

/-- `find` only depends on the vertex multiset. -/
theorem find_perm (sc : SC) (s t : List ℕ) (h : s ~ t) :
    SC.find sc s = SC.find sc t := by
  unfold SC.find
  rw [canon_eq_of_perm s t h]

/-- A successful lookup exhibits a stored entry. -/
theorem lookupQ_mem (k : List ℕ) (l : List (List ℕ × ℚ)) (v : ℚ)
    (h : lookupQ k l = some v) : (k, v) ∈ l := by
  induction l with
  | nil => cases h
  | cons p ps ih =>
    by_cases hp : p.1 = k
    · simp only [lookupQ, if_pos hp] at h
      cases h
      subst hp
      exact List.mem_cons_self _ _
    · simp only [lookupQ, if_neg hp] at h
      exact List.mem_cons_of_mem _ (ih h)

/-- Appending entries preserves a successful lookup. -/
theorem lookupQ_append_some (k : List ℕ) (l1 l2 : List (List ℕ × ℚ)) (v : ℚ)
    (h : lookupQ k l1 = some v) : lookupQ k (l1 ++ l2) = some v := by
  induction l1 with
  | nil => cases h
  | cons p ps ih =>
    by_cases hp : p.1 = k
    · simp only [lookupQ, if_pos hp] at h ⊢
      exact h
    · simp only [lookupQ, if_neg hp] at h ⊢
      exact ih h

/-- Lookup in an extension falls through failed prefixes. -/
theorem lookupQ_append_none (k : List ℕ) (l1 l2 : List (List ℕ × ℚ))
    (h : lookupQ k l1 = none) : lookupQ k (l1 ++ l2) = lookupQ k l2 := by
  induction l1 with
  | nil => rfl
  | cons p ps ih =>
    by_cases hp : p.1 = k
    · simp [lookupQ, hp] at h
    · simp only [List.cons_append, lookupQ, if_neg hp] at h ⊢
      exact ih h

/-- A present simplex keeps its recorded filtration across any insertion. -/
theorem find_insert_of_some (sc : SC) (s t : List ℕ) (fv g : ℚ)
    (h : SC.find sc t = some g) : SC.find (SC.insert sc s fv) t = some g := by
  unfold SC.insert
  by_cases hs : (SC.find sc s).isSome
  · rw [if_pos hs]
    exact h
  · rw [if_neg hs]
    exact lookupQ_append_some _ _ _ _ h

/-- Membership is preserved by insertion. -/
theorem mem_insert_of_mem (sc : SC) (s t : List ℕ) (fv : ℚ)
    (h : SC.mem sc t = true) : SC.mem (SC.insert sc s fv) t = true := by
  unfold SC.mem at h ⊢
  cases hf : SC.find sc t with
  | none => rw [hf] at h; cases h
  | some g => rw [find_insert_of_some sc s t fv g hf]; rfl

/-- The inserted simplex is found afterwards. -/
theorem mem_insert_self (sc : SC) (s : List ℕ) (fv : ℚ) :
    SC.mem (SC.insert sc s fv) s = true := by
  unfold SC.insert
  cases hf : SC.find sc s with
  | some g =>
    rw [if_pos (by rfl)]
    unfold SC.mem
    rw [hf]
    rfl
  | none =>
    rw [if_neg (by simp)]
    unfold SC.mem SC.find
    have hf2 : lookupQ (canon s) sc.simplices = none := hf
    have : lookupQ (canon s) (sc.simplices ++ [(canon s, fv)]) = some fv := by
      rw [lookupQ_append_none _ _ _ hf2]
      simp [lookupQ]
    rw [this]
    rfl

/-- Membership after insertion: the old members plus the inserted key. -/
theorem mem_insert_iff (sc : SC) (s t : List ℕ) (fv : ℚ) :
    SC.mem (SC.insert sc s fv) t = true ↔
      (SC.mem sc t = true ∨ canon t = canon s) := by
  constructor
  · intro h
    by_cases ht : SC.mem sc t = true
    · exact Or.inl ht
    · right
      unfold SC.insert at h
      by_cases hs : (SC.find sc s).isSome
      · rw [if_pos hs] at h
        exact absurd h ht
      · rw [if_neg hs] at h
        unfold SC.mem SC.find at h ht
        cases hl : lookupQ (canon t) sc.simplices with
        | some g => rw [hl] at ht; exact absurd rfl ht
        | none =>
          rw [lookupQ_append_none _ _ _ hl] at h
          by_cases hk : canon s = canon t
          · exact hk.symm
          · exfalso
            simp [lookupQ, hk] at h
  · intro h
    rcases h with h | h
    · exact mem_insert_of_mem sc s t fv h
    · have hm := mem_insert_self sc s fv
      unfold SC.mem SC.find at hm ⊢
      rw [h]
      exact hm

/-! ### Facet extraction and permutation transfer -/

/-- Reinserting the removed element recovers the list up to permutation. -/
theorem get_cons_eraseIdx_perm (l : List ℕ) :
    ∀ i (h : i < l.length), l.get ⟨i, h⟩ :: l.eraseIdx i ~ l := by
  induction l with
  | nil => intro i h; cases h
  | cons x xs ih =>
    intro i h
    cases i with
    | zero => exact List.Perm.refl _
    | succ j =>
      have hj : j < xs.length := Nat.lt_of_succ_lt_succ h
      calc xs.get ⟨j, hj⟩ :: x :: xs.eraseIdx j
          ~ x :: xs.get ⟨j, hj⟩ :: xs.eraseIdx j := List.Perm.swap _ _ _
        _ ~ x :: xs := (ih j hj).cons x

/-- A facet of a permuted list is, up to permutation, a facet of the
original. -/
theorem exists_eraseIdx_perm (s t : List ℕ) (h : s ~ t) :
    ∀ i, i < s.length → ∃ j, j < t.length ∧ s.eraseIdx i ~ t.eraseIdx j := by
  intro i hi
  have ha : s.get ⟨i, hi⟩ ∈ t := h.mem_iff.mp (s.get_mem i hi)
  rcases List.mem_iff_get.mp ha with ⟨⟨j, hj⟩, hget⟩
  refine ⟨j, hj, ?_⟩
  have h1 : s.get ⟨i, hi⟩ :: s.eraseIdx i ~ s := get_cons_eraseIdx_perm s i hi
  have h2 : t.get ⟨j, hj⟩ :: t.eraseIdx j ~ t := get_cons_eraseIdx_perm t j hj
  have h3 : s.get ⟨i, hi⟩ :: s.eraseIdx i ~ s.get ⟨i, hi⟩ :: t.eraseIdx j := by
    calc s.get ⟨i, hi⟩ :: s.eraseIdx i ~ s := h1
      _ ~ t := h
      _ ~ t.get ⟨j, hj⟩ :: t.eraseIdx j := h2.symm
      _ = s.get ⟨i, hi⟩ :: t.eraseIdx j := by rw [hget]
  exact h3.cons_inv

/-- Facets listed by `facetsOf` are exactly the one-vertex erasures. -/
theorem eraseIdx_mem_facetsOf (s : List ℕ) (j : ℕ) (hj : j < s.length) :
    s.eraseIdx j ∈ facetsOf s := by
  unfold facetsOf
  exact List.mem_map_of_mem _ (List.mem_range.mpr hj)

/-! ### The closure/filtration invariant is preserved by the construction -/

/-- Inserting a simplex whose facets are present with smaller filtration
values preserves the invariant. -/
theorem monoSC_insert (sc : SC) (s : List ℕ) (fv : ℚ) (hmono : MonoSC sc)
    (hfacets : 2 ≤ s.length →
      ∀ f ∈ facetsOf s, ∃ g, SC.find sc f = some g ∧ g ≤ fv) :
    MonoSC (SC.insert sc s fv) := by
  unfold SC.insert
  cases hf : SC.find sc s with
  | some g =>
    rw [if_pos (by rfl)]
    exact hmono
  | none =>
    rw [if_neg (by simp)]
    intro p hp hlen i hi
    rcases List.mem_append.mp hp with hmem | hmem
    · rcases hmono p hmem hlen i hi with ⟨g, hg, hgle⟩
      exact ⟨g, lookupQ_append_some _ _ _ _ hg, hgle⟩
    · have hps : p = (canon s, fv) := by simpa using hmem
      subst hps
      have hi2 : i < (canon s).length := hi
      rcases exists_eraseIdx_perm (canon s) s (canon_perm s) i hi2 with ⟨j, hj, hperm⟩
      have hlen2 : 2 ≤ s.length := by
        rw [← canon_length]
        exact hlen
      rcases hfacets hlen2 (s.eraseIdx j) (eraseIdx_mem_facetsOf s j hj) with ⟨g, hg, hgle⟩
      refine ⟨g, ?_, hgle⟩
      have hfind : SC.find sc ((canon s).eraseIdx i) = some g := by
        rw [find_perm sc _ _ hperm]
        exact hg
      exact lookupQ_append_some _ _ _ _ hfind

/-- A successful closure-oracle call bounds every facet's filtration by the
returned value. -/
theorem allFacesIn_facets_le (sc : SC) (s : List ℕ) (fv0 fv : ℚ)
    (h : allFacesIn sc s fv0 = some fv) :
    ∀ f ∈ facetsOf s, ∃ g, SC.find sc f = some g ∧ g ≤ fv := by
  rw [allFacesIn, allFacesInAux_eq] at h
  cases hff : facetFiltrations sc (facetsOf s) with
  | none => rw [hff] at h; cases h
  | some gs =>
    rw [hff] at h
    intro f hf
    rcases facetFiltrations_find sc _ gs hff f hf with ⟨g, hg, hmem⟩
    refine ⟨g, hg, ?_⟩
    have hfv : gs.foldl max fv0 = fv := by simpa using h
    rw [← hfv]
    exact foldl_max_mem_le gs g hmem fv0

/-- One leaf step preserves the invariant. -/
theorem monoSC_leafStep (nr : Option ℚ) (d : ℚ) (l : ℕ) (simplex : List ℕ)
    (sc : SC) (h : MonoSC sc) : MonoSC (leafStep nr d l simplex sc).1 := by
  unfold leafStep
  cases hf : allFacesIn sc (simplex ++ [l]) (leafFv nr d) with
  | none => exact h
  | some fv =>
    exact monoSC_insert sc _ fv h
      (fun _ => allFacesIn_facets_le sc _ _ fv hf)

/-- The scanning loop preserves the invariant. -/
theorem monoSC_faceLoop (alpha : ℚ) :
    ∀ (ls : List ℕ) (dim : ℕ) (nr : Option ℚ) (ds : List ℚ)
      (simplex : List ℕ) (sc : SC) (acc : Bool), MonoSC sc →
      MonoSC (faceLoop dim alpha nr ds ls simplex sc acc).1 := by
  intro ls
  induction ls with
  | nil =>
    intro dim nr ds simplex sc acc h
    cases ds <;> exact h
  | cons l ls ih =>
    intro dim nr ds simplex sc acc h
    cases ds with
    | nil => exact h
    | cons d ds =>
      by_cases hg : extLE (d - alpha) nr = true
      · cases dim with
        | zero =>
          simp only [faceLoop, hg, if_true]
          exact ih 0 (norelaxUpdateLeaf nr d) ds simplex _ _
            (monoSC_leafStep nr d l simplex sc h)
        | succ dm =>
          simp only [faceLoop, hg, if_true]
          have ha : MonoSC (if (SC.find sc (simplex ++ [l])).isSome then
              faceLoop dm alpha nr ds ls (simplex ++ [l]) sc false
              else (sc, false)).1 := by
            by_cases hfind : (SC.find sc (simplex ++ [l])).isSome
            · rw [if_pos hfind]
              exact ih dm nr ds (simplex ++ [l]) sc false h
            · rw [if_neg hfind]
              exact h
          exact ih (dm + 1) (norelaxUpdateNode nr d) ds simplex _ _
            (ih dm (norelaxUpdateNode nr d) ds simplex _ false ha)
      · have hg2 : extLE (d - alpha) nr = false := by
          rw [← Bool.not_eq_true]
          exact hg
        cases dim <;> simp only [faceLoop, hg2, Bool.false_eq_true, if_false] <;> exact h

/-- One witness pass preserves the invariant. -/
theorem monoSC_runPass (k : ℕ) (alpha : ℚ) (dist : List (List ℚ))
    (knn : List (List ℕ)) :
    ∀ (act : List ℕ) (sc : SC), MonoSC sc →
      MonoSC (runPass k alpha dist knn act sc).1 := by
  intro act
  induction act with
  | nil => intro sc h; exact h
  | cons w ws ih =>
    intro sc h
    exact ih _ (monoSC_faceLoop alpha _ k none _ [] sc false h)

/-- The dimension loop preserves the invariant. -/
theorem monoSC_build (alpha : ℚ) (dist : List (List ℚ)) (knn : List (List ℕ))
    (nbL : ℕ) (limD : ℤ) :
    ∀ (fuel k : ℕ) (act : List ℕ) (sc : SC), MonoSC sc →
      MonoSC (build alpha dist knn nbL limD fuel k act sc) := by
  intro fuel
  induction fuel with
  | zero => intro k act sc h; exact h
  | succ fuel ih =>
    intro k act sc h
    by_cases hc : (act.isEmpty || !(decide ((k : ℤ) ≤ limD)) ||
        !(decide (k < nbL))) = true
    · simp only [build, hc, if_true]
      exact h
    · have hc2 : (act.isEmpty || !(decide ((k : ℤ) ≤ limD)) ||
          !(decide (k < nbL))) = false := by
        rw [← Bool.not_eq_true]
        exact hc
      simp only [build, hc2, Bool.false_eq_true, if_false]
      exact ih (k + 1) _ _ (monoSC_runPass k alpha dist knn act sc h)

/-- The initial vertex fill satisfies the invariant (all keys are
singletons). -/
theorem monoSC_initVertices (nbL : ℕ) : MonoSC (initVertices nbL) := by
  unfold initVertices
  have hgen : ∀ (l : List ℕ) (sc : SC), MonoSC sc →
      MonoSC (l.foldl (fun sc i => SC.insert sc [i] 0) sc) := by
    intro l
    induction l with
    | nil => intro sc h; exact h
    | cons x xs ih =>
      intro sc h
      exact ih _ (monoSC_insert sc [x] 0 h (fun hlen => absurd hlen (by simp)))
  exact hgen (List.range nbL) ⟨[]⟩ (fun p hp => absurd hp (List.not_mem_nil p))

/-- The invariant holds for the output of the construction. -/
theorem monoSC_output (dist : List (List ℚ)) (knn : List (List ℕ)) (nbL : ℕ)
    (alpha : ℚ) (limD : ℤ) :
    MonoSC (relaxedWitnessComplex dist knn nbL alpha limD) :=
  monoSC_build alpha dist knn nbL limD _ 1 _ _ (monoSC_initVertices nbL)

/-- C1: every simplex of dimension at least 1 present in the output complex
has all of its codimension-1 faces present as well — a candidate is inserted
only after `all_faces_in` confirms each facet obtained by omitting one
vertex. -/
theorem C1_closure (dist : List (List ℚ)) (knn : List (List ℕ)) (nbL : ℕ)
    (alpha : ℚ) (limD : ℤ) (p : List ℕ × ℚ)
    (hp : p ∈ (relaxedWitnessComplex dist knn nbL alpha limD).simplices)
    (hlen : 2 ≤ p.1.length) (i : ℕ) (hi : i < p.1.length) :
    SC.mem (relaxedWitnessComplex dist knn nbL alpha limD) (p.1.eraseIdx i) =
      true := by
  rcases monoSC_output dist knn nbL alpha limD p hp hlen i hi with ⟨g, hg, _⟩
  unfold SC.mem
  rw [hg]
  rfl

/-- Witness for C1: the edge {0,1} of the concrete relaxation-window run has
its facet {1} present. -/
theorem C1_closure_witness :
    SC.mem (relaxedWitnessComplex [[1, 6/5, 5]] [[0, 1, 2]] 3 (1/2) 2)
      (([0, 1] : List ℕ).eraseIdx 0) = true :=
  C1_closure [[1, 6/5, 5]] [[0, 1, 2]] 3 (1/2) 2 ([0, 1], 0) (by decide)
    (by decide) 0 (by decide)

/-! ### Faces of arbitrary codimension, through chains of facets -/

/-- A strictly shorter sublist remains a sublist after erasing a suitable
position. -/
theorem sublist_exists_eraseIdx (t s : List ℕ) (h : t <+ s) :
    t.length < s.length → ∃ i, i < s.length ∧ t <+ s.eraseIdx i := by
  induction h with
  | slnil =>
    intro hlt
    exact absurd hlt (lt_irrefl 0)
  | @cons l1 l2 a h ih =>
    intro _
    exact ⟨0, Nat.succ_pos _, by simpa using h⟩
  | @cons₂ l1 l2 a h ih =>
    intro hlt
    have hlt2 : l1.length < l2.length := by simpa using hlt
    rcases ih hlt2 with ⟨i, hi, hsub⟩
    refine ⟨i + 1, by simpa using hi, ?_⟩
    simpa using hsub.cons₂ a

/-- A strict subpermutation survives erasing a suitable position. -/
theorem subperm_exists_eraseIdx (t s : List ℕ) (h : t <+~ s)
    (hlt : t.length < s.length) : ∃ i, i < s.length ∧ t <+~ s.eraseIdx i := by
  rcases h with ⟨u, hup, hus⟩
  have hlu : u.length < s.length := by
    rw [hup.length_eq]
    exact hlt
  rcases sublist_exists_eraseIdx u s hus hlu with ⟨i, hi, hsub⟩
  exact ⟨i, hi, u, hup, hsub⟩

/-- From the codimension-1 invariant, every nonempty face of a stored
simplex is present with a filtration value bounded by the simplex's. -/
theorem monoSC_faces (sc : SC) (hm : MonoSC sc) :
    ∀ (n : ℕ) (s : List ℕ) (f : ℚ) (t : List ℕ), s.length ≤ n →
      SC.find sc s = some f → t ≠ [] → t <+~ s →
      ∃ g, SC.find sc t = some g ∧ g ≤ f := by
  intro n
  induction n with
  | zero =>
    intro s f t hle hf hne hsub
    have hs : s = [] := List.length_eq_zero.mp (Nat.le_zero.mp hle)
    subst hs
    have ht : t = [] :=
      List.length_eq_zero.mp (Nat.le_zero.mp hsub.length_le)
    exact absurd ht hne
  | succ n ih =>
    intro s f t hle hf hne hsub
    by_cases heq : s.length ≤ t.length
    · have hperm : t ~ s := hsub.perm_of_length_le heq
      exact ⟨f, by rw [find_perm sc t s hperm]; exact hf, le_refl f⟩
    · push_neg at heq
      have hfc : lookupQ (canon s) sc.simplices = some f := hf
      have hmem := lookupQ_mem _ _ _ hfc
      have hsub2 : t <+~ canon s := hsub.trans (canon_perm s).symm.subperm
      have hlt2 : t.length < (canon s).length := by
        rw [canon_length]
        exact heq
      rcases subperm_exists_eraseIdx t (canon s) hsub2 hlt2 with ⟨i, hi, hsub3⟩
      have hlen2 : 2 ≤ (canon s).length := by
        have h1 : 0 < t.length := List.length_pos.mpr hne
        omega
      rcases hm (canon s, f) hmem hlen2 i hi with ⟨g, hg, hgle⟩
      have hflen : ((canon s).eraseIdx i).length ≤ n := by
        have h1 := List.length_eraseIdx_add_one hi
        have h2 := canon_length s
        omega
      rcases ih ((canon s).eraseIdx i) g t hflen hg hne hsub3 with ⟨g2, hg2, hg2le⟩
      exact ⟨g2, hg2, le_trans hg2le hgle⟩

/-- C4: for every simplex stored in the output complex and every nonempty
face of it (sub-multiset of its vertices), the face is present and its
recorded filtration value does not exceed the simplex's. -/
theorem C4_face_filtration_le (dist : List (List ℚ)) (knn : List (List ℕ))
    (nbL : ℕ) (alpha : ℚ) (limD : ℤ) (s t : List ℕ) (f : ℚ)
    (hf : SC.find (relaxedWitnessComplex dist knn nbL alpha limD) s = some f)
    (hne : t ≠ []) (hsub : t <+~ s) :
    ∃ g, SC.find (relaxedWitnessComplex dist knn nbL alpha limD) t = some g ∧
      g ≤ f :=
  monoSC_faces _ (monoSC_output dist knn nbL alpha limD) s.length s f t
    (le_refl _) hf hne hsub

/-- Witness for C4: the vertex {1} is a face of the edge {0,1} of the
concrete run and its filtration is bounded by the edge's. -/
theorem C4_face_filtration_le_witness :
    ∃ g, SC.find (relaxedWitnessComplex [[1, 6/5, 5]] [[0, 1, 2]] 3 (1/2) 2)
      [1] = some g ∧ g ≤ 0 :=
  C4_face_filtration_le [[1, 6/5, 5]] [[0, 1, 2]] 3 (1/2) 2 [0, 1] [1] 0
    (by decide) (by simp)
    ⟨[1], List.Perm.refl [1], List.Sublist.cons 0 (List.Sublist.refl [1])⟩

/-! ### Alpha-monotonicity: a larger relaxation admits every simplex the
smaller one admits.  The loops are compared in lockstep: the window state
`norelax_dist` evolves independently of `alpha` and of the complex, the guard
is monotone in `alpha`, and insertion only grows the container. -/

/-- The admissibility guard is monotone in the relaxation parameter. -/
theorem extLE_mono (alpha1 alpha2 d : ℚ) (nr : Option ℚ)
    (h : alpha1 ≤ alpha2) (hg : extLE (d - alpha1) nr = true) :
    extLE (d - alpha2) nr = true := by
  cases nr with
  | none => rfl
  | some v =>
    simp only [extLE, decide_eq_true_eq] at hg ⊢
    linarith

/-- A leaf step only adds simplices. -/
theorem leafStep_mem_mono (nr : Option ℚ) (d : ℚ) (l : ℕ) (simplex : List ℕ)
    (sc : SC) (t : List ℕ) (h : SC.mem sc t = true) :
    SC.mem (leafStep nr d l simplex sc).1 t = true := by
  unfold leafStep
  cases hf : allFacesIn sc (simplex ++ [l]) (leafFv nr d) with
  | none => exact h
  | some fv => exact mem_insert_of_mem sc _ t fv h

/-- The scanning loop only adds simplices. -/
theorem faceLoop_mem_mono (alpha : ℚ) :
    ∀ (ls : List ℕ) (dim : ℕ) (nr : Option ℚ) (ds : List ℚ)
      (simplex : List ℕ) (sc : SC) (acc : Bool) (t : List ℕ),
      SC.mem sc t = true →
      SC.mem (faceLoop dim alpha nr ds ls simplex sc acc).1 t = true := by
  intro ls
  induction ls with
  | nil =>
    intro dim nr ds simplex sc acc t h
    cases ds <;> exact h
  | cons l ls ih =>
    intro dim nr ds simplex sc acc t h
    cases ds with
    | nil => exact h
    | cons d ds =>
      by_cases hg : extLE (d - alpha) nr = true
      · cases dim with
        | zero =>
          simp only [faceLoop, hg, if_true]
          exact ih 0 _ ds simplex _ _ t (leafStep_mem_mono nr d l simplex sc t h)
        | succ dm =>
          simp only [faceLoop, hg, if_true]
          have ha : SC.mem (if (SC.find sc (simplex ++ [l])).isSome then
              faceLoop dm alpha nr ds ls (simplex ++ [l]) sc false
              else (sc, false)).1 t = true := by
            by_cases hfind : (SC.find sc (simplex ++ [l])).isSome
            · rw [if_pos hfind]
              exact ih dm nr ds (simplex ++ [l]) sc false t h
            · rw [if_neg hfind]
              exact h
          exact ih (dm + 1) _ ds simplex _ _ t (ih dm _ ds simplex _ false t ha)
      · have hg2 : extLE (d - alpha) nr = false := by
          rw [← Bool.not_eq_true]
          exact hg
        cases dim <;> simp only [faceLoop, hg2, Bool.false_eq_true, if_false] <;>
          exact h

/-- A loop entered with `will_be_active` already set reports active. -/
theorem faceLoop_acc_true (alpha : ℚ) :
    ∀ (ls : List ℕ) (dim : ℕ) (nr : Option ℚ) (ds : List ℚ)
      (simplex : List ℕ) (sc : SC),
      (faceLoop dim alpha nr ds ls simplex sc true).2 = true := by
  intro ls
  induction ls with
  | nil =>
    intro dim nr ds simplex sc
    cases ds <;> rfl
  | cons l ls ih =>
    intro dim nr ds simplex sc
    cases ds with
    | nil => rfl
    | cons d ds =>
      by_cases hg : extLE (d - alpha) nr = true
      · cases dim with
        | zero =>
          simp only [faceLoop, hg, if_true, Bool.true_or]
          exact ih 0 _ ds simplex _
        | succ dm =>
          simp only [faceLoop, hg, if_true, Bool.true_or]
          exact ih (dm + 1) _ ds simplex _
      · have hg2 : extLE (d - alpha) nr = false := by
          rw [← Bool.not_eq_true]
          exact hg
        cases dim <;> simp only [faceLoop, hg2, Bool.false_eq_true, if_false]

/-- The facet scan succeeds exactly when all facets are present. -/
theorem facetFiltrations_isSome_iff (sc : SC) (fs : List (List ℕ)) :
    (facetFiltrations sc fs).isSome = true ↔
      ∀ f ∈ fs, SC.mem sc f = true := by
  induction fs with
  | nil => simp [facetFiltrations]
  | cons f fs ih =>
    cases hf : SC.find sc f with
    | none =>
      simp only [facetFiltrations, hf]
      constructor
      · intro h; cases h
      · intro h
        have := h f (List.mem_cons_self f fs)
        unfold SC.mem at this
        rw [hf] at this
        cases this
    | some g =>
      simp only [facetFiltrations, hf]
      cases hfs : facetFiltrations sc fs with
      | none =>
        simp only [hfs] at ih ⊢
        constructor
        · intro h; cases h
        · intro h
          have h2 : ∀ f2 ∈ fs, SC.mem sc f2 = true :=
            fun f2 hf2 => h f2 (List.mem_cons_of_mem f hf2)
          have := ih.mpr h2
          cases this
      | some gs =>
        simp only [hfs] at ih ⊢
        constructor
        · intro _ f2 hf2
          rcases List.mem_cons.mp hf2 with he | he
          · subst he
            unfold SC.mem
            rw [hf]
            rfl
          · exact ih.mp rfl f2 he
        · intro _
          rfl

/-- The closure oracle succeeds exactly when all facets are present,
regardless of the initial filtration value. -/
theorem allFacesIn_isSome_iff (sc : SC) (s : List ℕ) (fv : ℚ) :
    (allFacesIn sc s fv).isSome = true ↔
      ∀ f ∈ facetsOf s, SC.mem sc f = true := by
  rw [allFacesIn, allFacesInAux_eq]
  rw [← facetFiltrations_isSome_iff sc (facetsOf s)]
  cases facetFiltrations sc (facetsOf s) <;> simp

/-- Insertion of the same simplex preserves membership inclusion, whatever
the two filtration values. -/
theorem memLE_insert (sc1 sc2 : SC) (s : List ℕ) (fv1 fv2 : ℚ)
    (h : memLE sc1 sc2) :
    memLE (SC.insert sc1 s fv1) (SC.insert sc2 s fv2) := by
  intro t ht
  rcases (mem_insert_iff sc1 s t fv1).mp ht with h1 | h1
  · exact mem_insert_of_mem _ _ _ _ (h t h1)
  · exact (mem_insert_iff sc2 s t fv2).mpr (Or.inr h1)

/-- Leaf simulation: over a larger complex the same leaf step inserts
whenever the smaller run does, and containment is preserved. -/
theorem leafStep_sim (nr : Option ℚ) (d : ℚ) (l : ℕ) (simplex : List ℕ)
    (sc1 sc2 : SC) (h : memLE sc1 sc2) :
    memLE (leafStep nr d l simplex sc1).1 (leafStep nr d l simplex sc2).1 ∧
    ((leafStep nr d l simplex sc1).2 = true →
     (leafStep nr d l simplex sc2).2 = true) := by
  unfold leafStep
  cases h1 : allFacesIn sc1 (simplex ++ [l]) (leafFv nr d) with
  | none =>
    constructor
    · intro t ht
      cases h2 : allFacesIn sc2 (simplex ++ [l]) (leafFv nr d) with
      | none => exact h t ht
      | some fv2 => exact mem_insert_of_mem _ _ _ _ (h t ht)
    · intro hfalse
      exact absurd hfalse (by simp)
  | some fv1 =>
    have hsome2 : (allFacesIn sc2 (simplex ++ [l]) (leafFv nr d)).isSome = true := by
      rw [allFacesIn_isSome_iff]
      intro f hf
      rcases allFacesIn_facets_le sc1 _ _ fv1 h1 f hf with ⟨g, hg, _⟩
      refine h f ?_
      unfold SC.mem
      rw [hg]
      rfl
    rcases Option.isSome_iff_exists.mp hsome2 with ⟨fv2, h2⟩
    rw [h2]
    exact ⟨memLE_insert sc1 sc2 _ fv1 fv2 h, fun _ => rfl⟩

/-- Lockstep simulation of the scanning loop under `alpha1 ≤ alpha2`: the
run with the larger relaxation contains the smaller run's complex, and
reports the witness active whenever the smaller run does. -/
theorem faceLoop_sim (alpha1 alpha2 : ℚ) (hA : alpha1 ≤ alpha2) :
    ∀ (ls : List ℕ) (dim : ℕ) (nr : Option ℚ) (ds : List ℚ)
      (simplex : List ℕ) (sc1 sc2 : SC) (acc1 acc2 : Bool),
      memLE sc1 sc2 → (acc1 = true → acc2 = true) →
      memLE (faceLoop dim alpha1 nr ds ls simplex sc1 acc1).1
            (faceLoop dim alpha2 nr ds ls simplex sc2 acc2).1 ∧
      ((faceLoop dim alpha1 nr ds ls simplex sc1 acc1).2 = true →
       (faceLoop dim alpha2 nr ds ls simplex sc2 acc2).2 = true) := by
  intro ls
  induction ls with
  | nil =>
    intro dim nr ds simplex sc1 sc2 acc1 acc2 hmem hacc
    cases ds <;> exact ⟨hmem, hacc⟩
  | cons l ls ih =>
    intro dim nr ds simplex sc1 sc2 acc1 acc2 hmem hacc
    cases ds with
    | nil => exact ⟨hmem, hacc⟩
    | cons d ds =>
      by_cases hg1 : extLE (d - alpha1) nr = true
      · have hg2 : extLE (d - alpha2) nr = true := extLE_mono alpha1 alpha2 d nr hA hg1
        cases dim with
        | zero =>
          simp only [faceLoop, hg1, hg2, if_true]
          rcases leafStep_sim nr d l simplex sc1 sc2 hmem with ⟨hmem2, hins⟩
          refine ih 0 _ ds simplex _ _ _ _ hmem2 ?_
          intro hor
          rcases Bool.or_eq_true_iff.mp hor with hx | hx
          · exact Bool.or_eq_true_iff.mpr (Or.inl (hacc hx))
          · exact Bool.or_eq_true_iff.mpr (Or.inr (hins hx))
        | succ dm =>
          simp only [faceLoop, hg1, hg2, if_true]
          have hstepA :
              memLE (if (SC.find sc1 (simplex ++ [l])).isSome then
                  faceLoop dm alpha1 nr ds ls (simplex ++ [l]) sc1 false
                  else (sc1, false)).1
                (if (SC.find sc2 (simplex ++ [l])).isSome then
                  faceLoop dm alpha2 nr ds ls (simplex ++ [l]) sc2 false
                  else (sc2, false)).1 ∧
              ((if (SC.find sc1 (simplex ++ [l])).isSome then
                  faceLoop dm alpha1 nr ds ls (simplex ++ [l]) sc1 false
                  else (sc1, false)).2 = true →
               (if (SC.find sc2 (simplex ++ [l])).isSome then
                  faceLoop dm alpha2 nr ds ls (simplex ++ [l]) sc2 false
                  else (sc2, false)).2 = true) := by
            by_cases hf1 : (SC.find sc1 (simplex ++ [l])).isSome
            · have hf2 : (SC.find sc2 (simplex ++ [l])).isSome = true :=
                hmem (simplex ++ [l]) hf1
              rw [if_pos hf1, if_pos hf2]
              exact ih dm nr ds (simplex ++ [l]) sc1 sc2 false false hmem
                (fun h => h)
            · rw [if_neg hf1]
              by_cases hf2 : (SC.find sc2 (simplex ++ [l])).isSome
              · rw [if_pos hf2]
                constructor
                · intro t ht
                  exact faceLoop_mem_mono alpha2 ls dm nr ds (simplex ++ [l])
                    sc2 false t (hmem t ht)
                · intro hfalse
                  exact absurd hfalse (by simp)
              · rw [if_neg hf2]
                exact ⟨hmem, fun h => h⟩
          rcases hstepA with ⟨hamem, haimp⟩
          rcases ih dm (norelaxUpdateNode nr d) ds simplex _ _ false false hamem
            (fun h => h) with ⟨hbmem, hbimp⟩
          refine ih (dm + 1) (norelaxUpdateNode nr d) ds simplex _ _ _ _ hbmem ?_
          intro hor
          rcases Bool.or_eq_true_iff.mp hor with hor2 | hx
          · rcases Bool.or_eq_true_iff.mp hor2 with hx | hx
            · exact Bool.or_eq_true_iff.mpr
                (Or.inl (Bool.or_eq_true_iff.mpr (Or.inl (hacc hx))))
            · exact Bool.or_eq_true_iff.mpr
                (Or.inl (Bool.or_eq_true_iff.mpr (Or.inr (haimp hx))))
          · exact Bool.or_eq_true_iff.mpr (Or.inr (hbimp hx))
      · have hg1f : extLE (d - alpha1) nr = false := by
          rw [← Bool.not_eq_true]
          exact hg1
        have hL :
            faceLoop dim alpha1 nr (d :: ds) (l :: ls) simplex sc1 acc1 =
              (sc1, acc1) := by
          cases dim <;> simp only [faceLoop, hg1f, Bool.false_eq_true, if_false]
        rw [hL]
        constructor
        · intro t ht
          exact faceLoop_mem_mono alpha2 (l :: ls) dim nr (d :: ds) simplex sc2
            acc2 t (hmem t ht)
        · intro hx
          have : acc2 = true := hacc hx
          subst this
          exact faceLoop_acc_true alpha2 (l :: ls) dim nr (d :: ds) simplex sc2

/-- Unfolding equation of one witness of the pass. -/
theorem runPass_cons (k : ℕ) (alpha : ℚ) (dist : List (List ℚ))
    (knn : List (List ℕ)) (w : ℕ) (ws : List ℕ) (sc : SC) :
    runPass k alpha dist knn (w :: ws) sc =
      ((runPass k alpha dist knn ws
          (faceLoop k alpha none (dist.getD w []) (knn.getD w []) [] sc
            false).1).1,
       if (faceLoop k alpha none (dist.getD w []) (knn.getD w []) [] sc
            false).2 then
         w :: (runPass k alpha dist knn ws
            (faceLoop k alpha none (dist.getD w []) (knn.getD w []) [] sc
              false).1).2
       else (runPass k alpha dist knn ws
          (faceLoop k alpha none (dist.getD w []) (knn.getD w []) [] sc
            false).1).2) := rfl

/-- One pass only adds simplices. -/
theorem runPass_mem_mono (k : ℕ) (alpha : ℚ) (dist : List (List ℚ))
    (knn : List (List ℕ)) :
    ∀ (ws : List ℕ) (sc : SC) (t : List ℕ), SC.mem sc t = true →
      SC.mem (runPass k alpha dist knn ws sc).1 t = true := by
  intro ws
  induction ws with
  | nil => intro sc t h; exact h
  | cons w ws ih =>
    intro sc t h
    exact ih _ t (faceLoop_mem_mono alpha (knn.getD w []) k none
      (dist.getD w []) [] sc false t h)

/-- Pass simulation: under a larger relaxation, a pass over a superset of
the active witnesses yields a larger complex and retains a superset of the
witnesses (as a sublist). -/
theorem runPass_sim (k : ℕ) (alpha1 alpha2 : ℚ) (dist : List (List ℚ))
    (knn : List (List ℕ)) (hA : alpha1 ≤ alpha2) :
    ∀ (ws1 ws2 : List ℕ), ws1 <+ ws2 → ∀ (sc1 sc2 : SC), memLE sc1 sc2 →
      memLE (runPass k alpha1 dist knn ws1 sc1).1
            (runPass k alpha2 dist knn ws2 sc2).1 ∧
      (runPass k alpha1 dist knn ws1 sc1).2 <+
        (runPass k alpha2 dist knn ws2 sc2).2 := by
  intro ws1 ws2 hsub
  induction hsub with
  | slnil =>
    intro sc1 sc2 h
    exact ⟨h, List.Sublist.slnil⟩
  | @cons l1 l2 a hsub ih =>
    intro sc1 sc2 h
    rw [runPass_cons]
    have h2 : memLE sc1
        (faceLoop k alpha2 none (dist.getD a []) (knn.getD a []) [] sc2
          false).1 := by
      intro t ht
      exact faceLoop_mem_mono alpha2 (knn.getD a []) k none (dist.getD a [])
        [] sc2 false t (h t ht)
    rcases ih sc1 _ h2 with ⟨hm, hs⟩
    refine ⟨hm, ?_⟩
    by_cases hb : (faceLoop k alpha2 none (dist.getD a []) (knn.getD a [])
        [] sc2 false).2 = true
    · simp only [hb, if_true]
      exact hs.cons a
    · have hbf : (faceLoop k alpha2 none (dist.getD a []) (knn.getD a [])
          [] sc2 false).2 = false := by
        rw [← Bool.not_eq_true]
        exact hb
      simp only [hbf, Bool.false_eq_true, if_false]
      exact hs
  | @cons₂ l1 l2 a hsub ih =>
    intro sc1 sc2 h
    rw [runPass_cons, runPass_cons]
    rcases faceLoop_sim alpha1 alpha2 hA (knn.getD a []) k none
      (dist.getD a []) [] sc1 sc2 false false h (fun x => x) with ⟨hmemp, himp⟩
    rcases ih _ _ hmemp with ⟨hm, hs⟩
    refine ⟨hm, ?_⟩
    by_cases hb1 : (faceLoop k alpha1 none (dist.getD a []) (knn.getD a [])
        [] sc1 false).2 = true
    · have hb2 := himp hb1
      simp only [hb1, hb2, if_true]
      exact hs.cons₂ a
    · have hb1f : (faceLoop k alpha1 none (dist.getD a []) (knn.getD a [])
          [] sc1 false).2 = false := by
        rw [← Bool.not_eq_true]
        exact hb1
      simp only [hb1f, Bool.false_eq_true, if_false]
      by_cases hb2 : (faceLoop k alpha2 none (dist.getD a []) (knn.getD a [])
          [] sc2 false).2 = true
      · simp only [hb2, if_true]
        exact hs.cons a
      · have hb2f : (faceLoop k alpha2 none (dist.getD a [])
            (knn.getD a []) [] sc2 false).2 = false := by
          rw [← Bool.not_eq_true]
          exact hb2
        simp only [hb2f, Bool.false_eq_true, if_false]
        exact hs

/-- The dimension loop only adds simplices. -/
theorem build_mem_mono (alpha : ℚ) (dist : List (List ℚ))
    (knn : List (List ℕ)) (nbL : ℕ) (limD : ℤ) :
    ∀ (fuel k : ℕ) (act : List ℕ) (sc : SC) (t : List ℕ),
      SC.mem sc t = true →
      SC.mem (build alpha dist knn nbL limD fuel k act sc) t = true := by
  intro fuel
  induction fuel with
  | zero => intro k act sc t h; exact h
  | succ fuel ih =>
    intro k act sc t h
    by_cases hc : (act.isEmpty || !(decide ((k : ℤ) ≤ limD)) ||
        !(decide (k < nbL))) = true
    · simp only [build, hc, if_true]
      exact h
    · have hcf : (act.isEmpty || !(decide ((k : ℤ) ≤ limD)) ||
          !(decide (k < nbL))) = false := by
        rw [← Bool.not_eq_true]
        exact hc
      simp only [build, hcf, Bool.false_eq_true, if_false]
      exact ih (k + 1) _ _ t (runPass_mem_mono k alpha dist knn act sc t h)

/-- Dimension-loop simulation for `alpha1 ≤ alpha2`. -/
theorem build_sim (alpha1 alpha2 : ℚ) (dist : List (List ℚ))
    (knn : List (List ℕ)) (nbL : ℕ) (limD : ℤ) (hA : alpha1 ≤ alpha2) :
    ∀ (fuel k : ℕ) (ws1 ws2 : List ℕ) (sc1 sc2 : SC), ws1 <+ ws2 →
      memLE sc1 sc2 → ∀ t,
      SC.mem (build alpha1 dist knn nbL limD fuel k ws1 sc1) t = true →
      SC.mem (build alpha2 dist knn nbL limD fuel k ws2 sc2) t = true := by
  intro fuel
  induction fuel with
  | zero =>
    intro k ws1 ws2 sc1 sc2 _ hmem t ht
    exact hmem t ht
  | succ fuel ih =>
    intro k ws1 ws2 sc1 sc2 hsub hmem t
    by_cases hc1 : (ws1.isEmpty || !(decide ((k : ℤ) ≤ limD)) ||
        !(decide (k < nbL))) = true
    · simp only [build, hc1, if_true]
      intro ht
      exact build_mem_mono alpha2 dist knn nbL limD (fuel + 1) k ws2 sc2 t
        (hmem t ht)
    · have hc1f : (ws1.isEmpty || !(decide ((k : ℤ) ≤ limD)) ||
          !(decide (k < nbL))) = false := by
        rw [← Bool.not_eq_true]
        exact hc1
      rcases Bool.or_eq_false_iff.mp hc1f with ⟨hor, hkn⟩
      rcases Bool.or_eq_false_iff.mp hor with ⟨hw1, hkd⟩
      have hw2 : ws2.isEmpty = false := by
        cases ws2 with
        | nil =>
          rw [List.sublist_nil.mp hsub] at hw1
          exact hw1
        | cons a l => rfl
      have hc2f : (ws2.isEmpty || !(decide ((k : ℤ) ≤ limD)) ||
          !(decide (k < nbL))) = false := by
        rw [hw2, hkd, hkn]
        rfl
      simp only [build, hc1f, hc2f, Bool.false_eq_true, if_false]
      rcases runPass_sim k alpha1 alpha2 dist knn hA ws1 ws2 hsub sc1 sc2 hmem
        with ⟨hm, hs⟩
      exact ih (k + 1) _ _ _ _ hs hm t

/-- C6: for a fixed nearest-landmark table and landmark count, every simplex
of the complex built with relaxation `alpha1` is also present in the complex
built with `alpha2`, whenever `0 ≤ alpha1 ≤ alpha2`. -/
theorem C6_alpha_monotone (dist : List (List ℚ)) (knn : List (List ℕ))
    (nbL : ℕ) (limD : ℤ) (alpha1 alpha2 : ℚ) (s : List ℕ)
    (_h0 : 0 ≤ alpha1) (hA : alpha1 ≤ alpha2)
    (hmem : SC.mem (relaxedWitnessComplex dist knn nbL alpha1 limD) s = true) :
    SC.mem (relaxedWitnessComplex dist knn nbL alpha2 limD) s = true :=
  build_sim alpha1 alpha2 dist knn nbL limD hA ((limD + 1).toNat) 1 _ _ _ _
    (List.Sublist.refl _) (fun _ ht => ht) s hmem

/-- Witness for C6: the edge {0,1} admitted at `alpha = 1/2` is also present
at `alpha = 1` on the concrete one-witness table. -/
theorem C6_alpha_monotone_witness :
    SC.mem (relaxedWitnessComplex [[1, 6/5, 5]] [[0, 1, 2]] 3 1 2) [0, 1] =
      true :=
  C6_alpha_monotone [[1, 6/5, 5]] [[0, 1, 2]] 3 2 (1/2) 1 [0, 1]
    (by norm_num) (by norm_num) (by decide)

/-! ### Termination: gas bounded by the cursor list, fuel bounded by the
dimension limit -/

/-- With gas at least the length of the remaining landmark list, the
gas-charged loop never exhausts and agrees with the total loop: every
recursive call strictly advances the cursor, so the call depth is bounded by
the list length. -/
theorem gasLoop_eq :
    ∀ (ls : List ℕ) (g : ℕ), ls.length ≤ g →
      ∀ (dim : ℕ) (alpha : ℚ) (nr : Option ℚ) (ds : List ℚ)
        (simplex : List ℕ) (sc : SC) (acc : Bool),
      gasLoop (gasAddFaces g) dim alpha nr ds ls simplex sc acc =
        some (faceLoop dim alpha nr ds ls simplex sc acc) := by
  intro ls
  induction ls with
  | nil =>
    intro g _ dim alpha nr ds simplex sc acc
    cases ds <;> rfl
  | cons l ls ih =>
    intro g hg dim alpha nr ds simplex sc acc
    cases ds with
    | nil => rfl
    | cons d ds =>
      by_cases hguard : extLE (d - alpha) nr = true
      · obtain ⟨g2, rfl⟩ : ∃ g2, g = g2 + 1 := by
          refine ⟨g - 1, ?_⟩
          have : 1 ≤ g := le_trans (Nat.succ_le_succ (Nat.zero_le _)) hg
          omega
        have hlsg : ls.length ≤ g2 := by
          have : ls.length + 1 ≤ g2 + 1 := hg
          omega
        have hadd : ∀ (dm : ℕ) (nr2 : Option ℚ) (simplex2 : List ℕ) (sc2 : SC),
            gasAddFaces (g2 + 1) dm alpha nr2 ds ls simplex2 sc2 =
              some (faceLoop dm alpha nr2 ds ls simplex2 sc2 false) := by
          intro dm nr2 simplex2 sc2
          by_cases hempty : ls.isEmpty
          · have hnil : ls = [] := by
              cases ls with
              | nil => rfl
              | cons a b => cases hempty
            subst hnil
            cases ds <;> rfl
          · have hef : ls.isEmpty = false := by
              rw [← Bool.not_eq_true]
              exact hempty
            simp only [gasAddFaces, hef, Bool.false_eq_true, if_false]
            exact ih g2 hlsg dm alpha nr2 ds simplex2 sc2 false
        cases dim with
        | zero =>
          simp only [gasLoop, faceLoop, hguard, if_true]
          exact ih (g2 + 1) (le_trans hlsg (Nat.le_succ g2)) 0 alpha _ ds
            simplex _ _
        | succ dm =>
          simp only [gasLoop, faceLoop, hguard, if_true]
          by_cases hfind : (SC.find sc (simplex ++ [l])).isSome
          · simp only [hfind, if_true, hadd]
            exact ih (g2 + 1) (le_trans hlsg (Nat.le_succ g2)) (dm + 1) alpha
              _ ds simplex _ _
          · have hff : (SC.find sc (simplex ++ [l])).isSome = false := by
              rw [← Bool.not_eq_true]
              exact hfind
            simp only [hff, Bool.false_eq_true, if_false, hadd]
            exact ih (g2 + 1) (le_trans hlsg (Nat.le_succ g2)) (dm + 1) alpha
              _ ds simplex _ _
      · have hgf : extLE (d - alpha) nr = false := by
          rw [← Bool.not_eq_true]
          exact hguard
        cases dim <;>
          simp only [gasLoop, faceLoop, hgf, Bool.false_eq_true, if_false]

/-- Beyond the dimension bound, extra fuel changes nothing. -/
theorem build_stable (alpha : ℚ) (dist : List (List ℚ))
    (knn : List (List ℕ)) (nbL : ℕ) (limD : ℤ) :
    ∀ (fuel k : ℕ) (act : List ℕ) (sc : SC),
      limD < (fuel : ℤ) + (k : ℤ) →
      build alpha dist knn nbL limD (fuel + 1) k act sc =
        build alpha dist knn nbL limD fuel k act sc := by
  intro fuel
  induction fuel with
  | zero =>
    intro k act sc hlt
    have hk : decide ((k : ℤ) ≤ limD) = false := by
      rw [decide_eq_false_iff_not]
      omega
    simp [build, hk]
  | succ fuel ih =>
    intro k act sc hlt
    by_cases hc : (act.isEmpty || !(decide ((k : ℤ) ≤ limD)) ||
        !(decide (k < nbL))) = true
    · simp only [build, hc, if_true]
    · have hcf : (act.isEmpty || !(decide ((k : ℤ) ≤ limD)) ||
          !(decide (k < nbL))) = false := by
        rw [← Bool.not_eq_true]
        exact hc
      simp only [build, hcf, Bool.false_eq_true, if_false]
      refine ih (k + 1) _ _ ?_
      push_cast
      push_cast at hlt
      omega

/-- C7: the construction terminates structurally.  First conjunct: the
recursion of `add_all_faces_of_dimension` runs within gas `length + 1` —
each recursive call strictly advances the cursor, so the depth is bounded by
the landmark list's length.  Second conjunct: any fuel beyond
`(limD + 1).toNat` leaves the dimension loop's result unchanged, so the
outer loop completes within `limD` rounds.  Third conjunct: the loop stops
as soon as the active pool is empty, or the dimension exceeds the requested
limit, or it would reach the landmark count. -/
theorem C7_termination :
    (∀ (dim : ℕ) (alpha : ℚ) (nr : Option ℚ) (ds : List ℚ) (ls : List ℕ)
        (simplex : List ℕ) (sc : SC),
        gasAddFaces (ls.length + 1) dim alpha nr ds ls simplex sc =
          some (addFaces dim alpha nr ds ls simplex sc)) ∧
    (∀ (dist : List (List ℚ)) (knn : List (List ℕ)) (nbL : ℕ) (alpha : ℚ)
        (limD : ℤ) (extra : ℕ),
        build alpha dist knn nbL limD ((limD + 1).toNat + extra) 1
          (List.range knn.length) (initVertices nbL) =
          relaxedWitnessComplex dist knn nbL alpha limD) ∧
    (∀ (alpha : ℚ) (dist : List (List ℚ)) (knn : List (List ℕ)) (nbL : ℕ)
        (limD : ℤ) (fuel k : ℕ) (act : List ℕ) (sc : SC),
        act = [] ∨ ¬ ((k : ℤ) ≤ limD) ∨ ¬ (k < nbL) →
        build alpha dist knn nbL limD (fuel + 1) k act sc = sc) := by
  refine ⟨?_, ?_, ?_⟩
  · intro dim alpha nr ds ls simplex sc
    by_cases hempty : ls.isEmpty
    · have hnil : ls = [] := by
        cases ls with
        | nil => rfl
        | cons a b => cases hempty
      subst hnil
      cases ds <;> rfl
    · have hef : ls.isEmpty = false := by
        rw [← Bool.not_eq_true]
        exact hempty
      simp only [gasAddFaces, hef, Bool.false_eq_true, if_false]
      exact gasLoop_eq ls ls.length (le_refl _) dim alpha nr ds simplex sc false
  · intro dist knn nbL alpha limD extra
    induction extra with
    | zero => rfl
    | succ extra ih =>
      rw [← ih]
      have hfin : limD < (((limD + 1).toNat + extra : ℕ) : ℤ) + (1 : ℕ) := by
        have h1 : limD + 1 ≤ ((limD + 1).toNat : ℤ) := Int.self_le_toNat _
        push_cast
        omega
      have := build_stable alpha dist knn nbL limD ((limD + 1).toNat + extra) 1
        (List.range knn.length) (initVertices nbL) hfin
      rw [← this, Nat.add_assoc]
  · intro alpha dist knn nbL limD fuel k act sc h
    have hc : (act.isEmpty || !(decide ((k : ℤ) ≤ limD)) ||
        !(decide (k < nbL))) = true := by
      rcases h with h | h | h
      · subst h
        rfl
      · simp [h]
      · simp [h]
    simp [build, hc]

/-- Witness for C7's stop-condition conjunct: an empty active pool stops the
loop at once. -/
theorem C7_termination_witness :
    build 0 [] [] 0 0 1 1 [] ⟨[]⟩ = ⟨[]⟩ :=
  C7_termination.2.2 0 [] [] 0 0 0 1 [] ⟨[]⟩ (Or.inl rfl)

end RelaxedWitness
